import Mathlib

/-!
Shallow embedding of the TF-IDF indexing and ranking core of `search-rs`
(`src/core.rs`): token normalization (`prepare_word`, `str_to_lower`),
document construction (`Doc::new`), index maintenance (`Model::add_document`,
`Model::rm_document`), ranking (`Model::search`, `Model::tf`, `Model::idf`)
and progress milestones (`Model::calculate_milestones`, `Model::print_progress`,
the sequential branch of `Model::add_contents`).

Modelling conventions:
- `hashbrown::HashMap<&str, usize>` for the document-frequency table is
  modelled as a total function `String → Nat` with default 0: the code only
  observes it through `get(t).unwrap_or(&0)`, `get_mut`-or-`insert(1)` and
  `entry(t).and_modify(f -= 1)`, none of which distinguish an absent key
  from the defaulted value (the `-= 1` on a present 0 would underflow in
  Rust; claim C8 shows it is unreachable under invariant I1, and the model
  uses truncated `Nat` subtraction there).
- The term-frequency table of a document and the `docs` map are modelled as
  association lists, with the `entry`-style update `bump` and
  first-occurrence removal mirroring the unique-key `HashMap` behaviour.
- `f32` values are modelled exactly: a rational together with NaN and the
  two infinities, with IEEE-754 rules for division by zero, `0 * ∞`,
  `∞ - ∞` and `log10` on zero/negative/infinite inputs (finite rounding and
  overflow are not modelled; they cannot produce NaN in the expressions of
  this program).
- External collaborators (the Snowball stemmer, Unicode `is_alphanumeric`
  above ASCII, and the finite values of `f32::log10`) are parameters,
  gathered in `Ext`; theorems hold for every instantiation.
- The progress channel (`Sender<Signal>`) is modelled by the list `sent` of
  signals emitted so far, in emission order.
-/

namespace SearchRs

/-- External collaborators of the core: the Snowball stemmer, the Unicode
`char::is_alphanumeric` classification for code points above ASCII, and the
finite values of `f32::log10` on positive finite inputs. -/
structure Ext where
  stem : String → String
  alnumHi : Char → Bool
  lg : ℚ → ℚ

/-- Exact model of the `f32` values this program can produce: NaN, the two
infinities, and finite values represented exactly as rationals. -/
inductive F where
  | nan : F
  | inf : F
  | neginf : F
  | fin : ℚ → F
deriving DecidableEq

/-- Predicate mirroring `f32::is_nan`. -/
def F.isNan : F → Bool
  | F.nan => true
  | _ => false

/-- IEEE-754 division of two finite values, as produced by the
`usize as f32 / usize as f32` expressions in `Model::tf` and `Model::idf`:
`0/0` is NaN, `x/0` for `x ≠ 0` is a signed infinity, otherwise exact. -/
def fdivQ (a b : ℚ) : F :=
  if b = 0 then (if a = 0 then F.nan else if 0 < a then F.inf else F.neginf)
  else F.fin (a / b)

/-- IEEE-754 multiplication on `F`: NaN is absorbing, `0 * ∞` is NaN,
infinities multiply by sign. -/
def fmul : F → F → F
  | F.nan, _ => F.nan
  | _, F.nan => F.nan
  | F.inf, F.inf => F.inf
  | F.inf, F.neginf => F.neginf
  | F.neginf, F.inf => F.neginf
  | F.neginf, F.neginf => F.inf
  | F.inf, F.fin q => if 0 < q then F.inf else if q < 0 then F.neginf else F.nan
  | F.fin q, F.inf => if 0 < q then F.inf else if q < 0 then F.neginf else F.nan
  | F.neginf, F.fin q => if 0 < q then F.neginf else if q < 0 then F.inf else F.nan
  | F.fin q, F.neginf => if 0 < q then F.neginf else if q < 0 then F.inf else F.nan
  | F.fin a, F.fin b => F.fin (a * b)

/-- IEEE-754 addition on `F`: NaN is absorbing, `∞ + (-∞)` is NaN. -/
def fadd : F → F → F
  | F.nan, _ => F.nan
  | _, F.nan => F.nan
  | F.inf, F.neginf => F.nan
  | F.neginf, F.inf => F.nan
  | F.inf, _ => F.inf
  | _, F.inf => F.inf
  | F.neginf, _ => F.neginf
  | _, F.neginf => F.neginf
  | F.fin a, F.fin b => F.fin (a + b)

/-- IEEE-754 `f32::log10` on `F`: NaN on NaN and on negative inputs
(including `-∞`), `+∞` at `+∞`, `-∞` at `0`, and a finite value on positive
finite inputs, supplied by the external parameter `lg`. -/
def log10F (lg : ℚ → ℚ) : F → F
  | F.nan => F.nan
  | F.inf => F.inf
  | F.neginf => F.nan
  | F.fin q => if 0 < q then F.fin (lg q) else if q = 0 then F.neginf else F.nan

/-- Model of `f32::partial_cmp`: `none` iff either side is NaN, otherwise
the total order `-∞ < finite < +∞` with finite values compared exactly. -/
def fcmp : F → F → Option Ordering
  | F.nan, _ => none
  | _, F.nan => none
  | F.neginf, F.neginf => some Ordering.eq
  | F.neginf, _ => some Ordering.lt
  | F.inf, F.neginf => some Ordering.gt
  | F.inf, F.inf => some Ordering.eq
  | F.inf, F.fin _ => some Ordering.gt
  | F.fin _, F.neginf => some Ordering.gt
  | F.fin _, F.inf => some Ordering.lt
  | F.fin a, F.fin b => some (if a < b then Ordering.lt else if b < a then Ordering.gt else Ordering.eq)

/-- Boolean order on non-NaN values of `F` (false whenever a NaN is
involved): used to state descending sortedness of search results. -/
def fleB : F → F → Bool
  | F.nan, _ => false
  | _, F.nan => false
  | F.neginf, _ => true
  | _, F.neginf => false
  | _, F.inf => true
  | F.inf, _ => false
  | F.fin a, F.fin b => a ≤ b

/-- Delimiter predicate for `SPLIT_CHARACTERS = [' ', ',', '.', ';']`. -/
def splitChar (c : Char) : Bool :=
  c = ' ' || c = ',' || c = '.' || c = ';'

/-- Structural model of Rust `str::split` over the character list: the
(possibly empty) substrings between delimiter occurrences.  As in Rust,
the empty string yields one empty token and consecutive delimiters yield
empty tokens. -/
def splitList (p : Char → Bool) : List Char → List (List Char)
  | [] => [[]]
  | c :: cs =>
    let r := splitList p cs
    if p c then [] :: r
    else
      match r with
      | w :: ws => (c :: w) :: ws
      | [] => [[c]]

/-- Tokenization `content.split(SPLIT_CHARACTERS)` used by `Doc::new` and
`Model::search`. -/
def splitWords (s : String) : List String :=
  (splitList splitChar s.data).map String.mk

/-- Model of Rust `char::is_alphanumeric`: exact on ASCII (letters and
digits), delegated to the external classification above ASCII. -/
def rustIsAlnum (E : Ext) (c : Char) : Bool :=
  if c.toNat < 128 then c.isAlphanum else E.alnumHi c

/-- Model of `word.trim_matches(|c| !c.is_alphanumeric())`: drop the
leading and trailing characters that are not alphanumeric. -/
def trimNonAlnum (E : Ext) (s : String) : String :=
  String.mk ((((s.data.dropWhile (fun c => !(rustIsAlnum E c))).reverse).dropWhile
    (fun c => !(rustIsAlnum E c))).reverse)

/-- Byte-level lowercasing step of `str_to_lower`: a byte in `A`–`Z` gets
32 added, every other byte (including every byte of a multi-byte UTF-8
sequence) is left unchanged.  Stated on `Char` because the bytes the Rust
code mutates are exactly the one-byte ASCII characters. -/
def lowerByte (c : Char) : Char :=
  if 65 ≤ c.toNat ∧ c.toNat ≤ 90 then Char.ofNat (c.toNat + 32) else c

/-- Model of `str_to_lower` from `src/core.rs`. -/
def str_to_lower (s : String) : String :=
  String.mk (s.data.map lowerByte)

/-- Model of `prepare_word` from `src/core.rs`: trim non-alphanumeric ends,
reject the empty result and results longer than 64 bytes, lowercase ASCII
letters, then stem. -/
def prepare_word (E : Ext) (word : String) : Option String :=
  let word := trimNonAlnum E word
  if word = ("") ∨ 64 < word.utf8ByteSize then none
  else some (E.stem (str_to_lower word))

/-- Model of `Doc` from `src/core.rs`: the term-frequency association list
and the `count` field (total number of accepted tokens). -/
structure Doc where
  tf : List (String × Nat)
  count : Nat
deriving DecidableEq

/-- Model of `*tf.entry(word).or_insert(0) += 1`: increment the first entry
with the given key, or append the key with count 1 if absent. -/
def bump : List (String × Nat) → String → List (String × Nat)
  | [], w => [(w, 1)]
  | kv :: rest, w => if kv.1 = w then (kv.1, kv.2 + 1) :: rest else kv :: bump rest w

/-- Fold body of `Doc::new`: an accepted word bumps its term count and the
total count, a rejected word leaves the accumulator unchanged. -/
def docFoldStep (E : Ext) (acc : Nat × List (String × Nat)) (word : String) :
    Nat × List (String × Nat) :=
  match prepare_word E word with
  | some w => (acc.1 + 1, bump acc.2 w)
  | none => acc

/-- Model of `Doc::new` from `src/core.rs`: split the content on the
delimiter set, normalize each token, and count the survivors. -/
def Doc.new (E : Ext) (content : String) : Doc :=
  let r := (splitWords content).foldl (docFoldStep E) (0, [])
  { tf := r.2, count := r.1 }

/-- Model of `Model` from `src/core.rs`.  The mpsc sender is replaced by
the list `sent` of all signals emitted so far, in order. -/
structure Model where
  count : Nat
  milestones : List (Nat × Nat)
  sent : List Nat
  df : String → Nat
  docs : List (String × Doc)

/-- Percentages `(5..=100).step_by(5)`. -/
def PERCENTS : List Nat :=
  [5, 10, 15, 20, 25, 30, 35, 40, 45, 50, 55, 60, 65, 70, 75, 80, 85, 90, 95, 100]

/-- Model of `Model::calculate_milestones`. -/
def Model.calculate_milestones (docsCount : Nat) : List (Nat × Nat) :=
  PERCENTS.map (fun p => (docsCount * p / 100, p))

/-- Model of `Model::new`: empty index pre-sized from the expected document
count, with the milestones computed from it. -/
def Model.new (docsCount : Nat) : Model :=
  { count := 0
    milestones := Model.calculate_milestones docsCount
    sent := []
    df := fun _ => 0
    docs := [] }

/-- Model of `Model::print_progress`: the `return` inside the `for_each`
closure only ends that closure, so every milestone whose count equals the
current count is sent, in list order. -/
def Model.print_progress (m : Model) : Model :=
  { m with sent := m.sent ++ (m.milestones.filter (fun cp => m.count = cp.1)).map Prod.snd }

/-- Model of `Model::rm_document`: remove the document at the path if
present and, for each of its term-frequency keys, decrement the
document-frequency entry (`entry(t).and_modify(f -= 1)`; on the functional
model the absent-key no-op and the present-key decrement coincide, see the
header comment). -/
def Model.rm_document (m : Model) (path : String) : Model :=
  match m.docs.lookup path with
  | none => m
  | some d =>
    { m with
      docs := m.docs.eraseP (fun kv => kv.1 == path)
      df := (d.tf.map Prod.fst).foldl
        (fun f t => fun t' => if t' = t then f t' - 1 else f t') m.df }

/-- Model of `Model::add_document`: retract the old document for the path,
build the new one, apply its distinct terms to the document-frequency
table, bump the processed count, report progress, store the document. -/
def Model.add_document (m : Model) (E : Ext) (path : String) (content : String) : Model :=
  let m := m.rm_document path
  let d := Doc.new E content
  let m := { m with
    df := (d.tf.map Prod.fst).foldl
      (fun f t => fun t' => if t' = t then f t' + 1 else f t') m.df }
  let m := { m with count := m.count + 1 }
  let m := m.print_progress
  { m with docs := m.docs ++ [(path, d)] }

/-- Fold of `Model::add_document` over a list of `(path, content)` pairs,
in order: the loop body of the sequential branch of `Model::add_contents`
(and, prefix by prefix, the committed state after each call). -/
def buildList (E : Ext) (m : Model) : List (String × String) → Model
  | [] => m
  | pc :: rest => buildList E (m.add_document E pc.1 pc.2) rest

/-- The `1 GiB` constant `GIG`. -/
def GIG : Nat := 1024 * 1024 * 1024

/-- Model of the parallel-mode trigger of `Model::add_contents`: some
content in the first half of the input is at least 1 GiB long. -/
def have_big_files (contents : List (String × String)) : Bool :=
  (contents.take (contents.length / 2)).any (fun pc => GIG ≤ pc.2.utf8ByteSize)

/-- Model of the sequential branch of `Model::add_contents` (taken when
`have_big_files` is false): add every pair in input order, then send the
final 0 signal.  In the parallel branch each `add_document` runs under one
exclusive lock, so the committed per-document transitions are the same up
to input order. -/
def Model.add_contents (m : Model) (E : Ext) (contents : List (String × String)) : Model :=
  let m := buildList E m contents
  { m with sent := m.sent ++ [0] }

/-- Model of `Model::tf`: `tf.get(t).unwrap_or(&0) as f32 / count as f32`,
with no special case for `count == 0`. -/
def Model.tf (t : String) (d : Doc) : F :=
  fdivQ (((d.tf.lookup t).getD 0 : Nat) : ℚ) ((d.count : Nat) : ℚ)

/-- Model of `Model::idf`: `log10(docs.len() as f32 / df.get(term).unwrap_or(&0) as f32)`. -/
def Model.idf (m : Model) (E : Ext) (term : String) : F :=
  log10F E.lg (fdivQ ((m.docs.length : Nat) : ℚ) ((m.df term : Nat) : ℚ))

/-- Query tokenization of `Model::search`: split on the delimiter set and
normalize with `prepare_word`, keeping the accepted tokens. -/
def queryTokens (E : Ext) (query : String) : List String :=
  (splitWords query).filterMap (prepare_word E)

/-- Per-document score of `Model::search`:
`tokens.iter().map(|t| tf(t, doc) * idf(t)).sum::<f32>()`, the `f32` sum
folding `+` from `0.0` in token order. -/
def Model.rank (m : Model) (E : Ext) (tokens : List String) (d : Doc) : F :=
  (tokens.map (fun tok => fmul (Model.tf tok d) (m.idf E tok))).foldl fadd (F.fin 0)

/-- The pre-sort result list of `Model::search`: every document whose score
is not NaN, paired with its score; NaN-scored documents are dropped. -/
def Model.keptRanks (m : Model) (E : Ext) (query : String) : List (String × F) :=
  m.docs.filterMap (fun pd =>
    if (m.rank E (queryTokens E query) pd.2).isNan then none
    else some (pd.1, m.rank E (queryTokens E query) pd.2))

/-- The sort comparator of `Model::search`:
`b.1.partial_cmp(&a.1).unwrap_unchecked()`, an ascending sort by the
reversed score comparison, i.e. descending by score.  The `unwrap_unchecked`
is undefined behaviour on NaN; the defaulted branch is unreachable because
NaN scores are filtered out before sorting (`keptRanks_not_nan`). -/
def rankLe (a b : String × F) : Bool :=
  ((fcmp b.2 a.2).getD Ordering.eq) ≠ Ordering.gt

/-- Insertion step of the comparison sort modelling `par_sort_unstable_by`. -/
def insertBy (le : (String × F) → (String × F) → Bool) (x : String × F) :
    List (String × F) → List (String × F)
  | [] => [x]
  | y :: ys => if le x y then x :: y :: ys else y :: insertBy le x ys

/-- Comparison sort modelling `par_sort_unstable_by`: any comparison sort
produces a permutation ordered by the comparator; insertion sort is used as
the concrete model. -/
def sortBy (le : (String × F) → (String × F) → Bool) : List (String × F) → List (String × F)
  | [] => []
  | x :: xs => insertBy le x (sortBy le xs)

/-- Model of `Model::search`: tokenize the query, score every document,
drop NaN scores, sort descending by score. -/
def Model.search (m : Model) (E : Ext) (query : String) : List (String × F) :=
  sortBy rankLe (m.keptRanks E query)

/-- Number of documents in an association list whose term-frequency map
contains the term `t`: the right-hand side of invariant I1. -/
def docCount (t : String) (docs : List (String × Doc)) : Nat :=
  (docs.filter (fun pd => (pd.2.tf.lookup t).isSome)).length

/-- Invariant I1: for every term, the document-frequency table equals the
number of indexed documents containing that term. -/
def I1 (m : Model) : Prop :=
  ∀ t, m.df t = docCount t m.docs

/-- Well-formedness of the index maps, guaranteed by `HashMap`: the paths
of `docs` are pairwise distinct, and each document's term-frequency keys
are pairwise distinct. -/
def WF (m : Model) : Prop :=
  (m.docs.map Prod.fst).Nodup ∧
  ∀ pd ∈ m.docs, (pd.2.tf.map (fun kv => kv.1)).Nodup

/-- Concrete instantiation of the external collaborators used by witnesses:
identity stemmer, nothing above ASCII alphanumeric, zero logarithm values. -/
def E0 : Ext :=
  { stem := id, alnumHi := fun _ => false, lg := fun _ => 0 }

/-- Concrete instantiation where every code point above ASCII counts as
alphanumeric (as `é` does for Rust's `char::is_alphanumeric`). -/
def E1 : Ext :=
  { stem := id, alnumHi := fun _ => true, lg := fun _ => 0 }

/-! ## Association-list lemmas for the term-frequency table -/

theorem bump_snd_sum (l : List (String × Nat)) (w : String) :
    ((bump l w).map Prod.snd).sum = (l.map Prod.snd).sum + 1 := by
  induction l with
  | nil => simp [bump]
  | cons kv rest ih =>
    by_cases h : kv.1 = w
    · simp [bump, h]
      omega
    · simp [bump, h, ih]
      omega

theorem bump_pos {l : List (String × Nat)} (h : ∀ kv ∈ l, 1 ≤ kv.2) (w : String) :
    ∀ kv ∈ bump l w, 1 ≤ kv.2 := by
  induction l with
  | nil =>
    intro kv hkv
    simp [bump] at hkv
    simp [hkv]
  | cons kv' rest ih =>
    intro kv hkv
    by_cases h' : kv'.1 = w
    · simp [bump, h'] at hkv
      rcases hkv with hkv | hkv
      · simp [hkv]
      · exact h kv (List.mem_cons_of_mem _ hkv)
    · simp [bump, h'] at hkv
      rcases hkv with hkv | hkv
      · exact h kv (by simp [hkv])
      · exact ih (fun kv hm => h kv (List.mem_cons_of_mem _ hm)) kv hkv

theorem bump_keys (l : List (String × Nat)) (w : String) :
    (bump l w).map Prod.fst =
      if w ∈ l.map Prod.fst then l.map Prod.fst else l.map Prod.fst ++ [w] := by
  induction l with
  | nil => simp [bump]
  | cons kv rest ih =>
    by_cases h : kv.1 = w
    · simp [bump, h]
    · have hne : ¬(w = kv.1) := fun he => h he.symm
      by_cases hm : w ∈ rest.map Prod.fst
      · simp [bump, h, ih, hne, hm]
      · simp [bump, h, ih, hne, hm]

theorem bump_keys_nodup {l : List (String × Nat)} (h : (l.map Prod.fst).Nodup)
    (w : String) : ((bump l w).map Prod.fst).Nodup := by
  rw [bump_keys]
  split
  · exact h
  · next hw => simp [List.nodup_append, h, hw]

theorem lookup_isSome_iff {β : Type} (l : List (String × β)) (k : String) :
    (l.lookup k).isSome ↔ k ∈ l.map Prod.fst := by
  induction l with
  | nil => simp [List.lookup]
  | cons kv rest ih =>
    by_cases h : k = kv.1
    · simp [List.lookup, h]
    · simp [List.lookup, beq_false_of_ne h, ih, h]

/-! ## The `Doc::new` fold invariant -/

theorem docFold_inv (E : Ext) (ws : List String) (c : Nat) (l : List (String × Nat))
    (h1 : c = (l.map Prod.snd).sum) (h2 : ∀ kv ∈ l, 1 ≤ kv.2)
    (h3 : (l.map Prod.fst).Nodup) :
    (ws.foldl (docFoldStep E) (c, l)).1 =
      ((ws.foldl (docFoldStep E) (c, l)).2.map Prod.snd).sum ∧
    (∀ kv ∈ (ws.foldl (docFoldStep E) (c, l)).2, 1 ≤ kv.2) ∧
    ((ws.foldl (docFoldStep E) (c, l)).2.map Prod.fst).Nodup := by
  induction ws generalizing c l with
  | nil => exact ⟨h1, h2, h3⟩
  | cons w ws ih =>
    simp only [List.foldl_cons]
    cases hw : prepare_word E w with
    | none =>
      simp only [docFoldStep, hw]
      exact ih c l h1 h2 h3
    | some w' =>
      simp only [docFoldStep, hw]
      exact ih (c + 1) (bump l w')
        (by rw [bump_snd_sum, ← h1]) (bump_pos h2 w') (bump_keys_nodup h3 w')

theorem docNew_count_sum (E : Ext) (content : String) :
    (Doc.new E content).count = ((Doc.new E content).tf.map Prod.snd).sum :=
  (docFold_inv E (splitWords content) 0 [] (by simp) (by simp) (by simp)).1

theorem docNew_tf_pos (E : Ext) (content : String) :
    ∀ kv ∈ (Doc.new E content).tf, 1 ≤ kv.2 :=
  (docFold_inv E (splitWords content) 0 [] (by simp) (by simp) (by simp)).2.1

theorem docNew_tf_keys_nodup (E : Ext) (content : String) :
    ((Doc.new E content).tf.map Prod.fst).Nodup :=
  (docFold_inv E (splitWords content) 0 [] (by simp) (by simp) (by simp)).2.2

theorem docNew_count_zero_tf_nil (E : Ext) (content : String)
    (h : (Doc.new E content).count = 0) : (Doc.new E content).tf = [] := by
  have h1 := docNew_count_sum E content
  have h2 := docNew_tf_pos E content
  cases htf : (Doc.new E content).tf with
  | nil => rfl
  | cons kv rest =>
    exfalso
    have hpos := h2 kv (by simp [htf])
    rw [h, htf] at h1
    simp at h1
    omega

/-- C9: for every content string, the `Doc` built by `Doc::new` has its
`count` field equal to the sum of all occurrence counts in its
term-frequency map, and every stored count is at least 1. -/
theorem C9_doc_count_sum_and_pos (E : Ext) (content : String) :
    (Doc.new E content).count = ((Doc.new E content).tf.map Prod.snd).sum ∧
    ∀ kv ∈ (Doc.new E content).tf, 1 ≤ kv.2 :=
  ⟨docNew_count_sum E content, docNew_tf_pos E content⟩

/-- C3 counterexample: for the empty content, `total_terms` is 0 and
`Model::tf` evaluates to NaN, not to 0 as the claim states (the division
`0.0 / 0.0` has no special case in the code). -/
theorem C3_cex_tf_empty_doc_is_nan :
    (Doc.new E0 ("")).count = 0 ∧
    Model.tf ("a") (Doc.new E0 ("")) = F.nan ∧ F.nan ≠ F.fin 0 := by
  decide

/-- C3 amended: for every document with `total_terms == 0` and every term,
`Model::tf` evaluates to NaN (it does not crash; the NaN propagates into
the score and such documents are later dropped by the NaN filter of
`Model::search`). -/
theorem C3_tf_zero_count_nan (E : Ext) (content : String) (t : String)
    (h : (Doc.new E content).count = 0) :
    Model.tf t (Doc.new E content) = F.nan := by
  have htf := docNew_count_zero_tf_nil E content h
  simp [Model.tf, htf, h, List.lookup, fdivQ]

/-- C3 witness: the amended theorem applied to the empty content. -/
theorem C3_tf_zero_count_nan_witness :
    (Doc.new E0 ("")).count = 0 ∧ Model.tf ("b") (Doc.new E0 ("")) = F.nan :=
  ⟨by decide, C3_tf_zero_count_nan E0 ("") ("b") (by decide)⟩

/-! ## C6: token normalization -/

/-- C6 counterexample input: 33 copies of `é`, each 2 UTF-8 bytes, hence 33
characters but 66 bytes. -/
def w33 : String := String.mk (List.replicate 33 'é')

/-- C6 counterexample: `w33` trims to itself (every character is
alphanumeric), is non-empty and 33 characters long — at most 64 characters,
so the claim requires it to be accepted — yet `prepare_word` rejects it,
because the length test is on the UTF-8 byte length (66), not the character
count. -/
theorem C6_cex_byte_length :
    trimNonAlnum E1 w33 = w33 ∧ w33 ≠ ("") ∧ w33.length = 33 ∧
    prepare_word E1 w33 = none := by decide

/-- C6 amended: `prepare_word` first trims leading and trailing
non-alphanumeric characters, returns nothing exactly when the trimmed
result is empty or longer than 64 UTF-8 bytes (not characters), and
otherwise lowercases ASCII `A`–`Z` bytes, leaving all other bytes
(including every non-ASCII byte) unchanged, before stemming. -/
theorem C6_prepare_word_spec (E : Ext) (w : String) :
    (prepare_word E w = none ↔
      (trimNonAlnum E w = ("") ∨ 64 < (trimNonAlnum E w).utf8ByteSize)) ∧
    (∀ t, prepare_word E w = some t →
      t = E.stem (str_to_lower (trimNonAlnum E w))) ∧
    (∀ c : Char, 65 ≤ c.toNat → c.toNat ≤ 90 →
      lowerByte c = Char.ofNat (c.toNat + 32)) ∧
    (∀ c : Char, 128 ≤ c.toNat → lowerByte c = c) := by
  refine ⟨?_, ?_, ?_, ?_⟩
  · simp only [prepare_word]
    split
    · next h => simp [h]
    · next h => simp [h]
  · intro t ht
    simp only [prepare_word] at ht
    split at ht
    · exact absurd ht (by simp)
    · simp at ht
      exact ht.symm
  · intro c h1 h2
    simp [lowerByte, h1, h2]
  · intro c h
    rw [lowerByte, if_neg]
    rintro ⟨h1, h2⟩
    omega

/-- C6 witness: the amended theorem applied to a concrete token. -/
theorem C6_prepare_word_spec_witness :
    prepare_word E0 ("..Hello!!") = some ("hello") ∧
    ("hello") = E0.stem (str_to_lower (trimNonAlnum E0 ("..Hello!!"))) :=
  ⟨by decide, (C6_prepare_word_spec E0 ("..Hello!!")).2.1 ("hello") (by decide)⟩

/-! ## C5: progress milestones -/

/-- Signals emitted by one `print_progress` call at running count `i`. -/
def emitted (ms : List (Nat × Nat)) (i : Nat) : List Nat :=
  (ms.filter (fun cp => i = cp.1)).map Prod.snd

theorem rm_document_count (m : Model) (p : String) :
    (m.rm_document p).count = m.count := by
  unfold Model.rm_document
  cases m.docs.lookup p <;> rfl

theorem rm_document_milestones (m : Model) (p : String) :
    (m.rm_document p).milestones = m.milestones := by
  unfold Model.rm_document
  cases m.docs.lookup p <;> rfl

theorem rm_document_sent (m : Model) (p : String) :
    (m.rm_document p).sent = m.sent := by
  unfold Model.rm_document
  cases m.docs.lookup p <;> rfl

theorem add_document_count (m : Model) (E : Ext) (p c : String) :
    (m.add_document E p c).count = m.count + 1 := by
  simp [Model.add_document, Model.print_progress, rm_document_count]

theorem add_document_milestones (m : Model) (E : Ext) (p c : String) :
    (m.add_document E p c).milestones = m.milestones := by
  simp [Model.add_document, Model.print_progress, rm_document_milestones]

theorem add_document_sent (m : Model) (E : Ext) (p c : String) :
    (m.add_document E p c).sent =
      m.sent ++ emitted m.milestones (m.count + 1) := by
  simp [Model.add_document, Model.print_progress, emitted,
    rm_document_sent, rm_document_milestones, rm_document_count]

theorem buildList_milestones (E : Ext) (l : List (String × String)) (m : Model) :
    (buildList E m l).milestones = m.milestones := by
  induction l generalizing m with
  | nil => rfl
  | cons pc rest ih => rw [buildList, ih, add_document_milestones]

theorem buildList_count (E : Ext) (l : List (String × String)) (m : Model) :
    (buildList E m l).count = m.count + l.length := by
  induction l generalizing m with
  | nil => simp [buildList]
  | cons pc rest ih =>
    rw [buildList, ih, add_document_count]
    simp
    omega

theorem buildList_sent (E : Ext) (l : List (String × String)) (m : Model) :
    (buildList E m l).sent = m.sent ++
      ((List.range l.length).map (fun j => emitted m.milestones (m.count + j + 1))).flatten := by
  induction l generalizing m with
  | nil => simp [buildList]
  | cons pc rest ih =>
    rw [buildList, ih, add_document_sent, add_document_milestones, add_document_count]
    rw [List.append_assoc]
    congr 1
    simp only [List.length_cons]
    rw [List.range_succ_eq_map, List.map_cons, List.flatten_cons, List.map_map]
    congr 1
    congr 1
    apply List.map_congr_left
    intro j _
    simp only [Function.comp]
    congr 1
    omega

theorem buildList_new_sent (E : Ext) (n : Nat) (l : List (String × String)) :
    (buildList E (Model.new n) l).sent =
      ((List.range l.length).map
        (fun j => emitted (Model.calculate_milestones n) (j + 1))).flatten := by
  rw [buildList_sent]
  simp [Model.new]

theorem emitted_calc (n i : Nat) :
    emitted (Model.calculate_milestones n) i =
      PERCENTS.filter (fun q => i = n * q / 100) := by
  rw [emitted, Model.calculate_milestones, List.filter_map, List.map_map]
  have : (Prod.snd ∘ fun p => (n * p / 100, p)) = id := rfl
  rw [this, List.map_id]
  rfl

theorem count_emitted_calc (n i p : Nat) (hp : p ∈ PERCENTS) :
    (emitted (Model.calculate_milestones n) i).count p =
      if i = n * p / 100 then 1 else 0 := by
  rw [emitted_calc]
  by_cases h : i = n * p / 100
  · rw [if_pos h, List.count_filter (by simpa using h)]
    exact List.count_eq_one_of_mem (by decide) hp
  · rw [if_neg h, List.count_eq_zero]
    intro hmem
    exact h (by simpa using (List.mem_filter.mp hmem).2)

theorem sum_indicator_range (n c : Nat) :
    ((List.range n).map (fun j => if j + 1 = c then 1 else 0)).sum =
      if 1 ≤ c ∧ c ≤ n then 1 else 0 := by
  induction n with
  | zero =>
    simp only [List.range_zero, List.map_nil, List.sum_nil]
    split_ifs with h
    · omega
    · rfl
  | succ n ih =>
    rw [List.range_succ, List.map_append, List.sum_append, ih]
    simp
    split_ifs <;> omega

theorem milestone_le (n p : Nat) (hp : p ∈ PERCENTS) : n * p / 100 ≤ n := by
  have hple : p ≤ 100 := by fin_cases hp <;> decide
  calc n * p / 100 ≤ n * 100 / 100 :=
        Nat.div_le_div_right (Nat.mul_le_mul_left n hple)
    _ = n := by omega

/-- C5 counterexample: the sequential build over a single document sends
exactly the signals `[100, 0]`.  The 5% milestone document-count is
`(1 * 5) / 100 = 0`, and the 5% signal is emitted zero times, not exactly
once as the claim requires (the running count is checked only after it is
incremented, so it never equals 0). -/
theorem C5_cex_skipped_milestone :
    have_big_files [(("p"), ("a"))] = false ∧
    (Model.add_contents (Model.new 1) E0 [(("p"), ("a"))]).sent = [100, 0] ∧
    (Model.add_contents (Model.new 1) E0 [(("p"), ("a"))]).sent.count 5 = 0 ∧
    5 ∈ PERCENTS ∧ 1 * 5 / 100 = 0 := by
  decide

/-- C5 amended: in a sequential-mode build over `contents` (the branch
taken when `have_big_files` is false; in parallel mode every
`add_document` and its progress check run under one exclusive lock), each
percentage `p` in {5, 10, …, 100} is emitted exactly once if its milestone
document-count `(total_docs * p) / 100` is at least 1 and never otherwise;
a signal is emitted exactly at the step where the running processed count
equals the milestone count; and a final signal 0 is sent on completion. -/
theorem C5_milestones (E : Ext) (contents : List (String × String))
    (hseq : have_big_files contents = false) :
    (∀ p ∈ PERCENTS,
      (Model.add_contents (Model.new contents.length) E contents).sent.count p =
        if 1 ≤ contents.length * p / 100 then 1 else 0) ∧
    (Model.add_contents (Model.new contents.length) E contents).sent.getLast? = some 0 ∧
    (∀ p ∈ PERCENTS, ∀ pre suf : List (String × String), contents = pre ++ suf →
      (p ∈ (buildList E (Model.new contents.length) pre).sent ↔
        (1 ≤ contents.length * p / 100 ∧ contents.length * p / 100 ≤ pre.length))) := by
  refine ⟨?_, ?_, ?_⟩
  · intro p hp
    have hp0 : p ≠ 0 := by fin_cases hp <;> decide
    rw [Model.add_contents]
    simp only [List.count_append, buildList_new_sent]
    rw [List.count_flatten, List.map_map]
    have hcnt : ∀ j ∈ List.range contents.length,
        (List.count p ∘ fun j => emitted (Model.calculate_milestones contents.length) (j + 1)) j =
          (fun j => if j + 1 = contents.length * p / 100 then 1 else 0) j := by
      intro j _
      exact count_emitted_calc contents.length (j + 1) p hp
    rw [List.map_congr_left hcnt, sum_indicator_range]
    have hle := milestone_le contents.length p hp
    have hcp : List.count p [0] = 0 := by
      simp [List.count_singleton]
      omega
    rw [hcp]
    split_ifs <;> omega
  · rw [Model.add_contents]
    exact List.getLast?_concat _
  · intro p hp pre suf hsplit
    rw [buildList_new_sent, List.mem_flatten]
    constructor
    · rintro ⟨lsub, hlsub, hmem⟩
      rcases List.mem_map.mp hlsub with ⟨j, hj, rfl⟩
      rw [emitted_calc] at hmem
      have hj' : j < pre.length := List.mem_range.mp hj
      have heq : j + 1 = contents.length * p / 100 := by
        simpa using (List.mem_filter.mp hmem).2
      omega
    · rintro ⟨h1, h2⟩
      refine ⟨emitted (Model.calculate_milestones contents.length)
        (contents.length * p / 100), ?_, ?_⟩
      · refine List.mem_map.mpr ⟨contents.length * p / 100 - 1, ?_, ?_⟩
        · exact List.mem_range.mpr (by omega)
        · congr 1
          omega
      · rw [emitted_calc]
        exact List.mem_filter.mpr ⟨hp, by simp⟩

/-- C5 witness: the amended theorem applied to a one-document build, where
the 100% milestone (count 1) is emitted exactly once. -/
theorem C5_milestones_witness :
    have_big_files [(("p"), ("a"))] = false ∧
    (Model.add_contents (Model.new 1) E0 [(("p"), ("a"))]).sent.count 100 = 1 := by
  refine ⟨by decide, ?_⟩
  have h := (C5_milestones E0 [(("p"), ("a"))] (by decide)).1 100 (by decide)
  simpa using h

/-! ## Order lemmas on non-NaN floats and the search sort -/

theorem isNan_false_iff (x : F) : x.isNan = false ↔ x ≠ F.nan := by
  cases x <;> simp [F.isNan]

theorem fcmp_ne_gt_iff {x y : F} (hx : x ≠ F.nan) (hy : y ≠ F.nan) :
    (((fcmp x y).getD Ordering.eq) ≠ Ordering.gt) ↔ fleB x y = true := by
  cases x with
  | nan => exact absurd rfl hx
  | inf => cases y with
    | nan => exact absurd rfl hy
    | inf => simp [fcmp, fleB]
    | neginf => simp [fcmp, fleB]
    | fin b => simp [fcmp, fleB]
  | neginf => cases y with
    | nan => exact absurd rfl hy
    | inf => simp [fcmp, fleB]
    | neginf => simp [fcmp, fleB]
    | fin b => simp [fcmp, fleB]
  | fin a => cases y with
    | nan => exact absurd rfl hy
    | inf => simp [fcmp, fleB]
    | neginf => simp [fcmp, fleB]
    | fin b =>
      rcases lt_trichotomy a b with h | h | h
      · simp [fcmp, fleB, h, le_of_lt h, not_lt.mpr (le_of_lt h)]
      · simp [fcmp, fleB, h, le_of_eq h]
      · simp [fcmp, fleB, h, not_lt.mpr (le_of_lt h), not_le.mpr h]

theorem fleB_trans {x y z : F} (h1 : fleB x y = true) (h2 : fleB y z = true) :
    fleB x z = true := by
  cases x <;> cases y <;> cases z <;>
    simp_all [fleB] <;> linarith

theorem fleB_total {x y : F} (hx : x ≠ F.nan) (hy : y ≠ F.nan) :
    fleB x y = true ∨ fleB y x = true := by
  cases x <;> cases y <;> simp_all [fleB]
  exact le_total _ _

theorem rankLe_iff {a b : String × F} (ha : a.2 ≠ F.nan) (hb : b.2 ≠ F.nan) :
    rankLe a b = true ↔ fleB b.2 a.2 = true := by
  rw [rankLe, decide_eq_true_eq]
  exact fcmp_ne_gt_iff hb ha

theorem insertBy_perm (le : (String × F) → (String × F) → Bool) (x : String × F)
    (l : List (String × F)) : (insertBy le x l).Perm (x :: l) := by
  induction l with
  | nil => exact List.Perm.refl _
  | cons y ys ih =>
    rw [insertBy]
    split
    · exact List.Perm.refl _
    · exact List.Perm.trans (List.Perm.cons y ih) (List.Perm.swap x y ys)

theorem sortBy_perm (le : (String × F) → (String × F) → Bool)
    (l : List (String × F)) : (sortBy le l).Perm l := by
  induction l with
  | nil => exact List.Perm.refl _
  | cons x xs ih =>
    rw [sortBy]
    exact List.Perm.trans (insertBy_perm le x (sortBy le xs)) (List.Perm.cons x ih)

theorem pairwise_insertBy (le : (String × F) → (String × F) → Bool)
    (P : (String × F) → Prop)
    (htrans : ∀ a b c, P a → P b → P c → le a b = true → le b c = true → le a c = true)
    (htot : ∀ a b, P a → P b → le a b = true ∨ le b a = true)
    (x : String × F) (l : List (String × F)) (hx : P x) (hl : ∀ y ∈ l, P y)
    (h : l.Pairwise (fun a b => le a b = true)) :
    (insertBy le x l).Pairwise (fun a b => le a b = true) := by
  induction l with
  | nil => simp [insertBy]
  | cons y ys ih =>
    rw [insertBy]
    split
    · next hxy =>
      refine List.pairwise_cons.mpr ⟨?_, h⟩
      intro z hz
      rcases List.mem_cons.mp hz with rfl | hz'
      · exact hxy
      · exact htrans x y z hx (hl y (by simp)) (hl z (by simp [hz'])) hxy
          ((List.pairwise_cons.mp h).1 z hz')
    · next hxy =>
      have hyx : le y x = true := by
        rcases htot x y hx (hl y (by simp)) with h' | h'
        · exact absurd h' hxy
        · exact h'
      refine List.pairwise_cons.mpr ⟨?_, ?_⟩
      · intro z hz
        rcases List.mem_cons.mp ((insertBy_perm le x ys).mem_iff.mp hz) with rfl | hz'
        · exact hyx
        · exact (List.pairwise_cons.mp h).1 z hz'
      · exact ih (fun y' hy' => hl y' (by simp [hy'])) (List.pairwise_cons.mp h).2

theorem pairwise_sortBy (le : (String × F) → (String × F) → Bool)
    (P : (String × F) → Prop)
    (htrans : ∀ a b c, P a → P b → P c → le a b = true → le b c = true → le a c = true)
    (htot : ∀ a b, P a → P b → le a b = true ∨ le b a = true)
    (l : List (String × F)) (hl : ∀ y ∈ l, P y) :
    (sortBy le l).Pairwise (fun a b => le a b = true) := by
  induction l with
  | nil => simp [sortBy]
  | cons x xs ih =>
    rw [sortBy]
    exact pairwise_insertBy le P htrans htot x (sortBy le xs) (hl x (by simp))
      (fun y hy => hl y (List.mem_cons_of_mem _ ((sortBy_perm le xs).mem_iff.mp hy)))
      (ih (fun y hy => hl y (by simp [hy])))

/-! ## Search result facts -/

theorem keptRanks_not_nan (m : Model) (E : Ext) (q : String) :
    ∀ x ∈ m.keptRanks E q, x.2 ≠ F.nan := by
  intro x hx
  rcases List.mem_filterMap.mp hx with ⟨pd, _, hins⟩
  split at hins
  · exact absurd hins (by simp)
  · next hnan =>
    rcases Option.some.inj hins with rfl
    exact (isNan_false_iff _).mp (by simpa using hnan)

theorem mem_keptRanks_iff (m : Model) (E : Ext) (q : String) (x : String × F) :
    x ∈ m.keptRanks E q ↔
      ∃ pd ∈ m.docs, (m.rank E (queryTokens E q) pd.2).isNan = false ∧
        x = (pd.1, m.rank E (queryTokens E q) pd.2) := by
  rw [Model.keptRanks, List.mem_filterMap]
  constructor
  · rintro ⟨pd, hpd, hins⟩
    split at hins
    · exact absurd hins (by simp)
    · next hnan =>
      exact ⟨pd, hpd, by simpa using hnan, (Option.some.inj hins).symm⟩
  · rintro ⟨pd, hpd, hnan, rfl⟩
    refine ⟨pd, hpd, ?_⟩
    simp [hnan]

theorem mem_search_iff (m : Model) (E : Ext) (q : String) (x : String × F) :
    x ∈ m.search E q ↔ x ∈ m.keptRanks E q :=
  (sortBy_perm rankLe (m.keptRanks E q)).mem_iff

/-- C7: for every index state and every query, the result of
`Model::search` is a permutation of the retained (non-NaN) scored
documents, ordered descending: every earlier entry's score is greater than
or equal to every later entry's score in the non-NaN float order (under
which `+∞` sorts first). -/
theorem C7_search_sorted_desc (E : Ext) (m : Model) (q : String) :
    (m.search E q).Pairwise (fun a b => fleB b.2 a.2 = true) ∧
    (m.search E q).Perm (m.keptRanks E q) := by
  constructor
  · have hpw := pairwise_sortBy rankLe (fun r => r.2 ≠ F.nan)
      (fun a b c ha hb hc h1 h2 => by
        rw [rankLe_iff ha hb] at h1
        rw [rankLe_iff hb hc] at h2
        rw [rankLe_iff ha hc]
        exact fleB_trans h2 h1)
      (fun a b ha hb => by
        rw [rankLe_iff ha hb, rankLe_iff hb ha]
        rcases fleB_total ha hb with h | h
        · exact Or.inr h
        · exact Or.inl h)
      (m.keptRanks E q) (keptRanks_not_nan m E q)
    refine List.Pairwise.imp_of_mem ?_ hpw
    intro a b ha hb hab
    have ha' := keptRanks_not_nan m E q a ((mem_search_iff m E q a).mp ha)
    have hb' := keptRanks_not_nan m E q b ((mem_search_iff m E q b).mp hb)
    exact (rankLe_iff ha' hb').mp hab
  · exact sortBy_perm rankLe (m.keptRanks E q)

/-- C4: for every index state with distinct paths and every query,
`Model::search` excludes exactly the documents whose score sum evaluates
to NaN: no NaN score appears in the result, every document with a non-NaN
(finite or `+∞`) score appears with its score, and every NaN-scored
document is absent entirely. -/
theorem C4_search_nan_excluded (E : Ext) (m : Model) (q : String)
    (hnd : (m.docs.map Prod.fst).Nodup) :
    (∀ x ∈ m.search E q, x.2 ≠ F.nan) ∧
    (∀ pd ∈ m.docs, m.rank E (queryTokens E q) pd.2 ≠ F.nan →
      (pd.1, m.rank E (queryTokens E q) pd.2) ∈ m.search E q) ∧
    (∀ pd ∈ m.docs, m.rank E (queryTokens E q) pd.2 = F.nan →
      ∀ r, (pd.1, r) ∉ m.search E q) := by
  refine ⟨?_, ?_, ?_⟩
  · intro x hx
    exact keptRanks_not_nan m E q x ((mem_search_iff m E q x).mp hx)
  · intro pd hpd hnan
    rw [mem_search_iff, mem_keptRanks_iff]
    exact ⟨pd, hpd, (isNan_false_iff _).mpr hnan, rfl⟩
  · intro pd hpd hnan r hr
    rcases (mem_keptRanks_iff m E q _).mp ((mem_search_iff m E q _).mp hr)
      with ⟨pd', hpd', hnan', heq⟩
    have hfst : pd'.1 = pd.1 := ((Prod.ext_iff.mp heq).1).symm
    have : pd' = pd := List.inj_on_of_nodup_map hnd hpd' hpd hfst
    rw [this] at hnan'
    rw [hnan] at hnan'
    simp [F.isNan] at hnan'

/-- C10: for every index state and every query whose tokenization yields
no accepted terms, `Model::search` returns every indexed document, each
scored exactly 0 (the empty `f32` sum), as a permutation of the document
list. -/
theorem C10_empty_query_all_zero (E : Ext) (m : Model) (q : String)
    (h : queryTokens E q = []) :
    (m.search E q).Perm (m.docs.map (fun pd => (pd.1, F.fin 0))) := by
  have hkept : m.keptRanks E q = m.docs.map (fun pd => (pd.1, F.fin 0)) := by
    rw [Model.keptRanks]
    have hcongr : ∀ pd ∈ m.docs,
        (if (m.rank E (queryTokens E q) pd.2).isNan then none
          else some (pd.1, m.rank E (queryTokens E q) pd.2)) =
        (some ∘ fun pd : String × Doc => (pd.1, F.fin 0)) pd := by
      intro pd _
      have hrank : m.rank E (queryTokens E q) pd.2 = F.fin 0 := by
        rw [h, Model.rank]
        rfl
      simp [hrank, F.isNan]
    rw [List.filterMap_congr hcongr, List.filterMap_eq_map]
  rw [Model.search, hkept]
  exact sortBy_perm rankLe _

/-- Concrete two-document index used by witnesses: built from an empty
model by adding documents at paths `p` and `q`. -/
def m2 : Model :=
  buildList E0 (Model.new 2) [(("p"), ("a b")), (("q"), ("b c"))]

/-- C4 witness: the theorem applied to the concrete index `m2` and query
`b`, with the distinct-paths hypothesis checked by evaluation. -/
theorem C4_search_nan_excluded_witness :
    (∀ x ∈ m2.search E0 ("b"), x.2 ≠ F.nan) ∧
    (∀ pd ∈ m2.docs, m2.rank E0 (queryTokens E0 ("b")) pd.2 ≠ F.nan →
      (pd.1, m2.rank E0 (queryTokens E0 ("b")) pd.2) ∈ m2.search E0 ("b")) ∧
    (∀ pd ∈ m2.docs, m2.rank E0 (queryTokens E0 ("b")) pd.2 = F.nan →
      ∀ r, (pd.1, r) ∉ m2.search E0 ("b")) :=
  C4_search_nan_excluded E0 m2 ("b") (by decide)

/-- C10 witness: the theorem applied to the concrete index `m2` and the
empty query, whose tokenization is empty by evaluation. -/
theorem C10_empty_query_all_zero_witness :
    (m2.search E0 ("")).Perm (m2.docs.map (fun pd => (pd.1, F.fin 0))) :=
  C10_empty_query_all_zero E0 m2 ("") (by decide)

/-! ## Invariant I1 under add/replace -/

theorem lookup_mem {β : Type} {l : List (String × β)} {p : String} {d : β}
    (h : l.lookup p = some d) : (p, d) ∈ l := by
  induction l with
  | nil => simp [List.lookup] at h
  | cons kv rest ih =>
    obtain ⟨k, b⟩ := kv
    rw [List.lookup] at h
    by_cases hpk : p = k
    · subst hpk
      simp at h
      subst h
      exact List.mem_cons_self _ _
    · rw [beq_false_of_ne hpk] at h
      exact List.mem_cons_of_mem _ (ih h)

theorem lookup_append_of_not_mem {β : Type} {l1 l2 : List (String × β)} {p : String}
    (h : p ∉ l1.map Prod.fst) : (l1 ++ l2).lookup p = l2.lookup p := by
  induction l1 with
  | nil => rfl
  | cons kv rest ih =>
    obtain ⟨k, b⟩ := kv
    have hpk : p ≠ k := by
      intro he
      exact h (by simp [he])
    rw [List.cons_append, List.lookup, beq_false_of_ne hpk]
    exact ih (fun hm => h (by simp [hm]))

theorem count_of_nodup {l : List String} (h : l.Nodup) (t : String) :
    l.count t = if t ∈ l then 1 else 0 := by
  split_ifs with hm
  · exact List.count_eq_one_of_mem h hm
  · exact List.count_eq_zero.mpr hm

theorem dfApply_foldl (df : String → Nat) (keys : List String) (s : String) :
    (keys.foldl (fun f t => fun t' => if t' = t then f t' + 1 else f t') df) s =
      df s + keys.count s := by
  induction keys generalizing df with
  | nil => simp
  | cons k ks ih =>
    rw [List.foldl_cons, ih]
    by_cases h : s = k
    · subst h
      simp [List.count_cons]
      omega
    · simp [List.count_cons, h, beq_false_of_ne (fun he => h he.symm)]

theorem dfRetract_foldl (df : String → Nat) (keys : List String) (s : String) :
    (keys.foldl (fun f t => fun t' => if t' = t then f t' - 1 else f t') df) s =
      df s - keys.count s := by
  induction keys generalizing df with
  | nil => simp
  | cons k ks ih =>
    rw [List.foldl_cons, ih]
    by_cases h : s = k
    · subst h
      simp [List.count_cons]
      omega
    · simp [List.count_cons, h, beq_false_of_ne (fun he => h he.symm)]

theorem docCount_append (t : String) (l1 l2 : List (String × Doc)) :
    docCount t (l1 ++ l2) = docCount t l1 + docCount t l2 := by
  simp [docCount, List.filter_append]

theorem docCount_pos_of_mem {t : String} {docs : List (String × Doc)}
    {pd : String × Doc} (hmem : pd ∈ docs) (ht : (pd.2.tf.lookup t).isSome) :
    1 ≤ docCount t docs := by
  have hf : pd ∈ docs.filter (fun pd => (pd.2.tf.lookup t).isSome) :=
    List.mem_filter.mpr ⟨hmem, by simpa using ht⟩
  have := List.ne_nil_of_mem hf
  have hlen := List.length_pos.mpr this
  exact hlen

theorem docCount_cons (t : String) (kv : String × Doc) (rest : List (String × Doc)) :
    docCount t (kv :: rest) =
      (if (kv.2.tf.lookup t).isSome then 1 else 0) + docCount t rest := by
  simp only [docCount, List.filter_cons]
  split_ifs with h
  · simp only [List.length_cons]
    omega
  · simp at h
    simp [h]

theorem docCount_eraseP {docs : List (String × Doc)} {p : String} {d : Doc}
    (hl : docs.lookup p = some d) (t : String) :
    docCount t (docs.eraseP (fun kv => kv.1 == p)) =
      docCount t docs - (if (d.tf.lookup t).isSome then 1 else 0) := by
  induction docs with
  | nil => simp [List.lookup] at hl
  | cons kv rest ih =>
    obtain ⟨k, b⟩ := kv
    by_cases hpk : p = k
    · subst hpk
      rw [List.lookup] at hl
      simp at hl
      subst hl
      rw [List.eraseP_cons_of_pos (by simp)]
      rw [docCount_cons]
      dsimp only
      omega
    · have hkp : ¬(k = p) := fun he => hpk he.symm
      rw [List.lookup, beq_false_of_ne hpk] at hl
      have hcontr : (if (d.tf.lookup t).isSome then 1 else 0) ≤ docCount t rest := by
        split_ifs with h
        · exact docCount_pos_of_mem (lookup_mem hl) h
        · omega
      rw [List.eraseP_cons_of_neg (by simp [hkp])]
      rw [docCount_cons, docCount_cons, ih hl]
      dsimp only
      omega

theorem keys_eraseP {docs : List (String × Doc)} {p : String}
    (hnd : (docs.map Prod.fst).Nodup) :
    p ∉ ((docs.eraseP (fun kv => kv.1 == p)).map Prod.fst) := by
  induction docs with
  | nil => simp
  | cons kv rest ih =>
    rw [List.map_cons] at hnd
    by_cases h : kv.1 = p
    · rw [List.eraseP_cons_of_pos (by simp [h])]
      have hne := (List.nodup_cons.mp hnd).1
      rw [h] at hne
      exact hne
    · rw [List.eraseP_cons_of_neg (by simp [h])]
      rw [List.map_cons]
      intro hmem
      rcases List.mem_cons.mp hmem with he | hm
      · exact h he.symm
      · exact ih (List.nodup_cons.mp hnd).2 hm

theorem rm_document_spec (m : Model) (p : String) (hI1 : I1 m) (hWF : WF m) :
    I1 (m.rm_document p) ∧ WF (m.rm_document p) ∧
    p ∉ ((m.rm_document p).docs.map Prod.fst) := by
  cases hl : m.docs.lookup p with
  | none =>
    simp only [Model.rm_document, hl]
    refine ⟨hI1, hWF, ?_⟩
    intro hmem
    have : (m.docs.lookup p).isSome := (lookup_isSome_iff _ _).mpr hmem
    rw [hl] at this
    simp at this
  | some d =>
    simp only [Model.rm_document, hl]
    have hmem := lookup_mem hl
    have hkeysnd : (d.tf.map Prod.fst).Nodup := hWF.2 (p, d) hmem
    refine ⟨?_, ⟨?_, ?_⟩, ?_⟩
    · intro t
      dsimp only
      rw [dfRetract_foldl, count_of_nodup hkeysnd, hI1 t, docCount_eraseP hl t]
      have hiff : t ∈ List.map Prod.fst d.tf ↔ (d.tf.lookup t).isSome = true :=
        (lookup_isSome_iff d.tf t).symm
      congr 1
      simp only [hiff]
    · exact List.Nodup.sublist (List.Sublist.map _ (List.eraseP_sublist _)) hWF.1
    · intro pd hpd
      exact hWF.2 pd ((List.eraseP_sublist _).subset hpd)
    · exact keys_eraseP hWF.1

theorem add_document_df (m : Model) (E : Ext) (p c : String) :
    (m.add_document E p c).df = ((Doc.new E c).tf.map Prod.fst).foldl
      (fun f t => fun t' => if t' = t then f t' + 1 else f t')
      (m.rm_document p).df := rfl

theorem add_document_docs (m : Model) (E : Ext) (p c : String) :
    (m.add_document E p c).docs = (m.rm_document p).docs ++ [(p, Doc.new E c)] := rfl

theorem docCount_singleton (t p : String) (d : Doc) :
    docCount t [(p, d)] = if t ∈ d.tf.map Prod.fst then 1 else 0 := by
  by_cases h : (d.tf.lookup t).isSome
  · have h2 : t ∈ d.tf.map Prod.fst := (lookup_isSome_iff _ _).mp h
    simp [docCount_cons, docCount, h, h2]
  · have h2 : t ∉ d.tf.map Prod.fst := fun hm => h ((lookup_isSome_iff _ _).mpr hm)
    simp [docCount_cons, docCount, h, h2]

theorem add_document_I1_WF (m : Model) (E : Ext) (p c : String)
    (hI1 : I1 m) (hWF : WF m) :
    I1 (m.add_document E p c) ∧ WF (m.add_document E p c) := by
  obtain ⟨hI1', hWF', hp'⟩ := rm_document_spec m p hI1 hWF
  constructor
  · intro t
    rw [I1] at hI1'
    rw [add_document_df, add_document_docs, dfApply_foldl,
      count_of_nodup (docNew_tf_keys_nodup E c), hI1' t,
      docCount_append, docCount_singleton]
  · constructor
    · rw [add_document_docs, List.map_append]
      rw [List.nodup_append]
      refine ⟨hWF'.1, by simp, ?_⟩
      intro a ha hb
      simp at hb
      subst hb
      exact hp' ha
    · intro pd hpd
      rw [add_document_docs] at hpd
      rcases List.mem_append.mp hpd with hm | hm
      · exact hWF'.2 pd hm
      · have : pd = (p, Doc.new E c) := by simpa using hm
        rw [this]
        exact docNew_tf_keys_nodup E c

theorem buildList_I1_WF (E : Ext) (calls : List (String × String)) (n : Nat) :
    I1 (buildList E (Model.new n) calls) ∧ WF (buildList E (Model.new n) calls) := by
  have hstep : ∀ m : Model, I1 m ∧ WF m →
      I1 (buildList E m calls) ∧ WF (buildList E m calls) := by
    induction calls with
    | nil => exact fun m h => h
    | cons pc rest ih =>
      intro m h
      exact ih _ (add_document_I1_WF m E pc.1 pc.2 h.1 h.2)
  refine hstep (Model.new n) ⟨?_, ?_, ?_⟩
  · intro t
    simp [Model.new, docCount]
  · simp [Model.new]
  · intro pd hpd
    simp [Model.new] at hpd

/-- C1: for every sequence of `add_document` calls starting from an empty
index, invariant I1 holds after each call (every prefix of a call sequence
is itself such a sequence): for every term `t`, the document-frequency
table at `t` equals the number of indexed documents whose term-frequency
map contains `t`, an absent entry counting as 0. -/
theorem C1_df_invariant (E : Ext) (n : Nat) (calls : List (String × String)) (t : String) :
    (buildList E (Model.new n) calls).df t =
      docCount t (buildList E (Model.new n) calls).docs :=
  (buildList_I1_WF E calls n).1 t

/-- C2: re-indexing a path that is already present leaves the number of
documents unchanged, stores the newly built document at that path, and
leaves the document-frequency table reflecting exactly the current
documents (invariant I1), so no term's count retains any contribution of
the superseded document. -/
theorem C2_reindex_replaces (E : Ext) (m : Model) (p c : String)
    (hI1 : I1 m) (hWF : WF m) (hp : p ∈ m.docs.map Prod.fst) :
    (m.add_document E p c).docs.length = m.docs.length ∧
    (∀ t, (m.add_document E p c).df t = docCount t (m.add_document E p c).docs) ∧
    (m.add_document E p c).docs.lookup p = some (Doc.new E c) := by
  obtain ⟨hI1', hWF', hp'⟩ := rm_document_spec m p hI1 hWF
  refine ⟨?_, (add_document_I1_WF m E p c hI1 hWF).1, ?_⟩
  · rw [add_document_docs, List.length_append]
    have hsome : (m.docs.lookup p).isSome := (lookup_isSome_iff _ _).mpr hp
    cases hl : m.docs.lookup p with
    | none =>
      rw [hl] at hsome
      simp at hsome
    | some d =>
      have hrm : (m.rm_document p).docs = m.docs.eraseP (fun kv => kv.1 == p) := by
        simp only [Model.rm_document, hl]
      have hmem := lookup_mem hl
      have hlen := List.length_eraseP_of_mem (p := fun kv => kv.1 == p) hmem
        (by exact beq_self_eq_true p)
      have hpos : 1 ≤ m.docs.length := List.length_pos.mpr (List.ne_nil_of_mem hmem)
      rw [hrm, hlen]
      simp
      omega
  · rw [add_document_docs, lookup_append_of_not_mem hp']
    simp [List.lookup]

/-- C2 witness: the theorem applied to the concrete two-document index
`m2`, re-indexing path `p` with new content. -/
theorem C2_reindex_replaces_witness :
    (m2.add_document E0 ("p") ("x y")).docs.length = m2.docs.length ∧
    (∀ t, (m2.add_document E0 ("p") ("x y")).df t =
      docCount t (m2.add_document E0 ("p") ("x y")).docs) ∧
    (m2.add_document E0 ("p") ("x y")).docs.lookup ("p") = some (Doc.new E0 ("x y")) :=
  C2_reindex_replaces E0 m2 ("p") ("x y")
    (buildList_I1_WF E0 [(("p"), ("a b")), (("q"), ("b c"))] 2).1
    (buildList_I1_WF E0 [(("p"), ("a b")), (("q"), ("b c"))] 2).2
    (by decide)

/-- C8: under invariant I1, for every document present in the index, every
term of its term-frequency map has a document-frequency of at least 1, so
the `usize` decrement in `rm_document` cannot underflow. -/
theorem C8_no_underflow (m : Model) (p : String) (d : Doc)
    (hI1 : I1 m) (hl : m.docs.lookup p = some d) :
    ∀ t ∈ d.tf.map Prod.fst, 1 ≤ m.df t := by
  intro t ht
  have hmem : (p, d) ∈ m.docs := lookup_mem hl
  have hsome : (d.tf.lookup t).isSome := (lookup_isSome_iff _ _).mpr ht
  rw [hI1 t]
  exact docCount_pos_of_mem hmem hsome

/-- C8 witness: the theorem applied to the concrete index `m2` at path
`p` (document built from content `a b`) and term `a`. -/
theorem C8_no_underflow_witness :
    ("a") ∈ (Doc.new E0 ("a b")).tf.map Prod.fst ∧ 1 ≤ m2.df ("a") :=
  ⟨by decide,
    C8_no_underflow m2 ("p") (Doc.new E0 ("a b"))
      (buildList_I1_WF E0 [(("p"), ("a b")), (("q"), ("b c"))] 2).1
      (by decide) ("a") (by decide)⟩

/-- C1 witness: the invariant evaluated on a concrete two-document build
at term `b`. -/
theorem C1_df_invariant_witness :
    (buildList E0 (Model.new 2) [(("p"), ("a b")), (("q"), ("b c"))]).df ("b") =
      docCount ("b")
        (buildList E0 (Model.new 2) [(("p"), ("a b")), (("q"), ("b c"))]).docs :=
  C1_df_invariant E0 2 [(("p"), ("a b")), (("q"), ("b c"))] ("b")

/-- C7 witness: the sortedness theorem applied to the concrete index `m2`
and query `b`. -/
theorem C7_search_sorted_desc_witness :
    (m2.search E0 ("b")).Pairwise (fun a b => fleB b.2 a.2 = true) ∧
    (m2.search E0 ("b")).Perm (m2.keptRanks E0 ("b")) :=
  C7_search_sorted_desc E0 m2 ("b")

/-- C9 witness: the document invariant applied to concrete content. -/
theorem C9_doc_count_sum_and_pos_witness :
    (Doc.new E0 ("a b a")).count = ((Doc.new E0 ("a b a")).tf.map Prod.snd).sum ∧
    ∀ kv ∈ (Doc.new E0 ("a b a")).tf, 1 ≤ kv.2 :=
  C9_doc_count_sum_and_pos E0 ("a b a")

end SearchRs
